import Mathlib

/-!
Verification of the collapsed-stack ("flamegraph") text-profile converter.

The source under study has two entry points:

* `isFlameGraphFormat(profile)` — format detection looking only at the first
  line of the raw text;
* `convertFlameGraphProfile(profile)` — conversion of the collapsed-stack
  text into the normalized table-based profile (gecko format, version 24).

Modelling choices:

* strings are `List Char`;
* JavaScript `Map`s are insertion-ordered association lists; `Map.get` is
  first-match lookup (`mapGet`), which agrees with `Map` semantics here
  because `set` is only ever called after a miss, so keys are unique.
  The stack map's JS string keys `` `${frame}` `` / `` `${frame},${prefix}` ``
  encode the pair (frame id, optional prefix id) injectively (a decimal
  numeral contains no comma), so the key is modelled as that pair, i.e. as
  the `StackRow` itself;
* JS numbers are `Nat`: the only arithmetic is `parseInt` on a nonempty
  string of decimal digits, counter increments and array lengths;
* `console.log` of a skipped line is modelled by appending the line to a
  `log` list carried in the conversion state.
-/

/-- Decimal digit test: the character class `[0-9]` of the source regexes. -/
def isDigitChar (c : Char) : Bool :=
  decide ('0' ≤ c) && decide (c ≤ '9')

/-- JS `s.split(sep)` for a one-character separator. `String.prototype.split`
never returns an empty array: splitting the empty string yields `[""]`. -/
def splitOnChar (sep : Char) : List Char → List (List Char)
  | [] => [[]]
  | c :: rest =>
    if c = sep then [] :: splitOnChar sep rest
    else
      match splitOnChar sep rest with
      | h :: t => (c :: h) :: t
      | [] => [[c]]

/-- JS `parseInt` applied to a nonempty string of decimal digits. -/
def parseDigits (l : List Char) : Nat :=
  l.foldl (fun n c => 10 * n + (c.toNat - '0'.toNat)) 0

/-- The literal 4-character Java marker `_[j]`. -/
def javaSuffix : List Char := ['_', '[', 'j', ']']

/-- JS `frameString.endsWith('_[j]')`. -/
def endsWithJavaSuffix (s : List Char) : Bool :=
  javaSuffix.isSuffixOf s

/-- JS `frameString.replace(/_\[j\]$/, '')`: the pattern is the literal
marker anchored at the end of the string, so the replacement strips one
trailing occurrence of the 4-character marker and nothing else. -/
def stripJavaSuffix (s : List Char) : List Char :=
  if endsWithJavaSuffix s then s.take (s.length - 4) else s

/-- JS `frameString.includes('::')`. -/
def hasColonColon : List Char → Bool
  | ':' :: ':' :: _ => true
  | _ :: rest => hasColonColon rest
  | [] => false

def OTHER_CATEGORY_INDEX : Nat := 0

def JAVA_CATEGORY_INDEX : Nat := 1

def NATIVE_CATEGORY_INDEX : Nat := 2

/-- The category assigned in `getOrCreateFrame`: start from Other, switch to
Java when the raw label ends with the `_[j]` marker, otherwise to Native
when the raw label does not contain `::`. -/
def categoryOf (frameString : List Char) : Nat :=
  if endsWithJavaSuffix frameString then JAVA_CATEGORY_INDEX
  else if !hasColonColon frameString then NATIVE_CATEGORY_INDEX
  else OTHER_CATEGORY_INDEX

/-- One row of the frame table, following the source schema
(location, relevantForJS, innerWindowID, implementation, optimizations,
line, column, category, subcategory). -/
structure FrameRow where
  location : Nat
  relevantForJS : Bool
  innerWindowID : Nat
  implementation : Option Nat
  optimizations : Option Nat
  line : Option Nat
  column : Option Nat
  category : Nat
  subcategory : Option Nat
deriving DecidableEq

/-- One row of the stack table: the source schema is (prefix, frame); the
`prefix` column is called `pre` here. -/
structure StackRow where
  pre : Option Nat
  frame : Nat
deriving DecidableEq

/-- One row of the samples table, following the source schema
(stack, time, responsiveness). -/
structure SampleRow where
  stack : Option Nat
  time : Nat
  responsiveness : Nat
deriving DecidableEq

/-- JS `Map.prototype.get` on an insertion-ordered association list. -/
def mapGet {κ : Type} [DecidableEq κ] (key : κ) : List (κ × Nat) → Option Nat
  | [] => none
  | e :: rest => if e.1 = key then some e.2 else mapGet key rest

/-- The per-thread mutable tables created by `_createThread`, together with
the two interning maps. -/
structure ThreadState where
  stringTable : List (List Char)
  frameTable : List FrameRow
  stackTable : List StackRow
  samples : List SampleRow
  frameMap : List (List Char × Nat)
  stackMap : List (StackRow × Nat)
deriving DecidableEq

/-- All tables and maps start empty. -/
def initialThread : ThreadState := ⟨[], [], [], [], [], []⟩

/-- A fresh frame row as pushed by `getOrCreateFrame`: all columns other
than location and category are the constants of the source
(relevantForJS = false, innerWindowID = 0, the rest null). -/
def mkFrameRow (location category : Nat) : FrameRow :=
  ⟨location, false, 0, none, none, none, none, category, none⟩

/-- `getOrCreateFrame(frameString)`: look the raw label up in the frame map;
on a miss, push the suffix-stripped label onto the string table, push a new
frame row whose location is the string's index and whose category is given
by `categoryOf`, and record the raw label in the map. -/
def getOrCreateFrame (frameString : List Char) (t : ThreadState) :
    Nat × ThreadState :=
  match mapGet frameString t.frameMap with
  | some frame => (frame, t)
  | none =>
    (t.frameTable.length,
      { t with
        stringTable := t.stringTable ++ [stripJavaSuffix frameString]
        frameTable :=
          t.frameTable ++ [mkFrameRow t.stringTable.length (categoryOf frameString)]
        frameMap := t.frameMap ++ [(frameString, t.frameTable.length)] })

/-- `getOrCreateStack(frame, prefix)`: look the composite key up in the
stack map; on a miss, push a new stack row and record it in the map. -/
def getOrCreateStack (frame : Nat) (pre : Option Nat) (t : ThreadState) :
    Nat × ThreadState :=
  match mapGet (StackRow.mk pre frame) t.stackMap with
  | some stack => (stack, t)
  | none =>
    (t.stackTable.length,
      { t with
        stackTable := t.stackTable ++ [StackRow.mk pre frame]
        stackMap := t.stackMap ++ [(StackRow.mk pre frame, t.stackTable.length)] })

/-- The reducer of `addSample`: resolve the frame, then the stack keyed by
the accumulated prefix, and pass the new stack id on as the next prefix. -/
def addSampleStep (acc : Option Nat × ThreadState) (stackFrame : List Char) :
    Option Nat × ThreadState :=
  let fr := getOrCreateFrame stackFrame acc.2
  let sk := getOrCreateStack fr.1 acc.1 fr.2
  (some sk.1, sk.2)

/-- `addSample(time, stackArray)`: fold the frame labels left-to-right
starting from a null prefix, then push a sample row for the resulting stack
with responsiveness 0. -/
def addSample (time : Nat) (stackArray : List (List Char)) (t : ThreadState) :
    ThreadState :=
  let folded := stackArray.foldl addSampleStep (none, t)
  { folded.2 with samples := folded.2.samples ++ [SampleRow.mk folded.1 time 0] }

/-- The per-line regex `([^;]*(;[^;]*)*) ([0-9]+)` applied with JS
`String.prototype.match`: unanchored search, leftmost match, greedy
quantifiers.  Group 1 `[^;]*(;[^;]*)*` matches every string whatsoever, so
a match exists iff the line contains a space immediately followed by a
digit; the leftmost such match then starts at index 0, and greedy
backtracking of group 1 (which hands back end positions one at a time from
the end of the line) places the mandatory space at the last index that is
immediately followed by a digit.  The returned pair is (group 1, group 3):
everything before that space, and the maximal digit run after it. -/
def lineMatch : List Char → Option (List Char × List Char)
  | [] => none
  | c :: rest =>
    match lineMatch rest with
    | some r => some (c :: r.1, r.2)
    | none =>
      if c = ' ' then
        match rest with
        | d :: _ => if isDigitChar d then some ([], rest.takeWhile isDigitChar) else none
        | [] => none
      else none

/-- The whole conversion state: the single thread's tables, the process-wide
`timeStamp` counter, and the list of lines reported by `console.log`. -/
structure ConvState where
  thread : ThreadState
  timeStamp : Nat
  log : List (List Char)
deriving DecidableEq

/-- The `while (count-- > 0)` loop of `convertFlameGraphProfile`: each
iteration re-splits the frames string on `;` and, when the resulting array
is nonempty (it always is), adds one sample at the current timestamp and
increments the counter. -/
def emitSamples (frames : List Char) : Nat → ConvState → ConvState
  | 0, cs => cs
  | count + 1, cs =>
    let stack := splitOnChar ';' frames
    if stack.length ≠ 0 then
      emitSamples frames count
        ⟨addSample cs.timeStamp stack cs.thread, cs.timeStamp + 1, cs.log⟩
    else emitSamples frames count cs

/-- The per-line step of the conversion loop: empty lines are skipped
silently; lines the regex does not match are logged and skipped; matched
lines emit `parseInt(duration)` samples. -/
def processLine (cs : ConvState) (line : List Char) : ConvState :=
  if line = [] then cs
  else
    match lineMatch line with
    | none => ⟨cs.thread, cs.timeStamp, cs.log ++ [line]⟩
    | some r => emitSamples r.1 (parseDigits r.2) cs

/-- `convertFlameGraphProfile(profile)`: split the text into lines and run
the per-line step over all of them, starting from empty tables and a zero
timestamp.  The returned profile object wraps `thread.finish()` into fixed
metadata (interval 1, version 24, the fixed 3-category list, a single
"MainThread" with pid 0 and tid 0, empty markers); all of that metadata is
constant, so the conversion result is modelled by the final `ConvState`. -/
def convertFlameGraphProfile (profile : List Char) : ConvState :=
  (splitOnChar '\n' profile).foldl processLine ⟨initialThread, 0, []⟩

/-- The single thread produced by a conversion run. -/
def convThread (profile : List Char) : ThreadState :=
  (convertFlameGraphProfile profile).thread

/-- The number of samples a line contributes: the parsed weight for matched
lines, 0 for empty or unmatched lines. -/
def lineWeight (line : List Char) : Nat :=
  match lineMatch line with
  | none => 0
  | some r => parseDigits r.2

/-- JS `profile.substring(0, profile.indexOf('\n'))`: when the text contains
no line break, `indexOf` returns -1 and `substring(0, -1)` clamps to the
empty string. -/
def firstLineJs (profile : List Char) : List Char :=
  if profile.contains '\n' then profile.takeWhile (fun c => c != '\n') else []

/-- Truthiness of `firstLine.match(/[^;]*(;[^;]*)* [0-9]+/)`: since the
segment part of the pattern matches every string and the search is
unanchored, the regex has a match iff the line contains a space immediately
followed by a digit; `isFlameGraphFormat_characterization` proves this
equal to the structural reading `detectorRegexMatches` of the pattern. -/
def hasSpaceDigit : List Char → Bool
  | [] => false
  | c :: rest =>
    (decide (c = ' ') && (match rest with | d :: _ => isDigitChar d | [] => false))
      || hasSpaceDigit rest

/-- `isFlameGraphFormat(profile)`: text starting with `{` is rejected
outright; otherwise the regex is tested against the first line only. -/
def isFlameGraphFormat (profile : List Char) : Bool :=
  if profile.head? = some '{' then false
  else hasSpaceDigit (firstLineJs profile)

/-- The character class `[^;]`, lifted to a word. -/
def isSegChars (l : List Char) : Prop := ∀ c ∈ l, c ≠ ';'

/-- The words of the regex piece `(;[^;]*)*`: a concatenation of blocks,
each a semicolon followed by semicolon-free text. -/
inductive SemiSegList : List Char → Prop where
  | nil : SemiSegList []
  | cons (seg rest : List Char) : isSegChars seg → SemiSegList rest →
      SemiSegList (';' :: (seg ++ rest))

/-- Structural reading of an unanchored match of
`[^;]*(;[^;]*)* [0-9]+` inside `l`: some decomposition of `l` puts a
semicolon-free segment, then semicolon-led segments, then a space, then at
least one digit, at some position. -/
def detectorRegexMatches (l : List Char) : Prop :=
  ∃ pre seg0 mid d ds post,
    l = pre ++ seg0 ++ mid ++ ' ' :: d :: (ds ++ post) ∧
    isSegChars seg0 ∧ SemiSegList mid ∧ isDigitChar d = true ∧
    (∀ c ∈ ds, isDigitChar c = true)

/-- Default entry used with `List.getD` on the frame map. -/
def defFrameEntry : List Char × Nat := ([], 0)

/-- Default entry used with `List.getD` on the stack map. -/
def defStackEntry : StackRow × Nat := (StackRow.mk none 0, 0)

/-- Default row used with `List.getD` on the frame table. -/
def defaultFrameRow : FrameRow := mkFrameRow 0 0

/-- Default row used with `List.getD` on the stack table. -/
def defaultStackRow : StackRow := StackRow.mk none 0

/-- The structural invariant of the thread tables, maintained by every
interning and sampling operation: the frame map enumerates the raw labels
in insertion order with values equal to positions; the string table holds
the suffix-stripped label of each frame, at the same index; each frame row
is fully determined by its index and raw label; the stack map mirrors the
stack table; stack rows reference earlier rows and valid frames; samples
reference valid stacks. -/
structure TablesOk (t : ThreadState) : Prop where
  fm_len : t.frameTable.length = t.frameMap.length
  str_len : t.stringTable.length = t.frameMap.length
  fm_val : ∀ j, j < t.frameMap.length → (t.frameMap.getD j defFrameEntry).2 = j
  fm_nodup : (t.frameMap.map Prod.fst).Nodup
  str_row : ∀ j, j < t.frameMap.length →
    t.stringTable.getD j [] = stripJavaSuffix (t.frameMap.getD j defFrameEntry).1
  frame_row : ∀ j, j < t.frameMap.length →
    t.frameTable.getD j defaultFrameRow =
      mkFrameRow j (categoryOf (t.frameMap.getD j defFrameEntry).1)
  sm_len : t.stackMap.length = t.stackTable.length
  sm_entry : ∀ j, j < t.stackMap.length →
    t.stackMap.getD j defStackEntry = (t.stackTable.getD j defaultStackRow, j)
  stack_pre : ∀ j, j < t.stackTable.length → ∀ p,
    (t.stackTable.getD j defaultStackRow).pre = some p → p < j
  stack_frame : ∀ j, j < t.stackTable.length →
    (t.stackTable.getD j defaultStackRow).frame < t.frameTable.length
  samples_ok : ∀ s ∈ t.samples,
    s.stack ≠ none ∧ (∀ k, s.stack = some k → k < t.stackTable.length) ∧
      s.responsiveness = 0

/-- The conversion-state invariant: the tables are sound and the sample
timestamps so far are exactly `0, 1, ..., timeStamp - 1` in order. -/
def ConvOk (cs : ConvState) : Prop :=
  TablesOk cs.thread ∧
    cs.thread.samples.map (fun s => s.time) = List.range cs.timeStamp

/-! ## Helper lemmas about `mapGet`, `List.getD` and `splitOnChar` -/

theorem mapGet_eq_none_iff {κ : Type} [DecidableEq κ] (key : κ) (m : List (κ × Nat)) :
    mapGet key m = none ↔ ∀ e ∈ m, e.1 ≠ key := by
  induction m with
  | nil => simp [mapGet]
  | cons e rest ih =>
    by_cases h : e.1 = key
    · simp [mapGet, h]
    · simp [mapGet, h, ih]

theorem mapGet_eq_some_mem {κ : Type} [DecidableEq κ] (key : κ) (m : List (κ × Nat))
    (v : Nat) (d : κ × Nat) (h : mapGet key m = some v) :
    ∃ j, j < m.length ∧ m.getD j d = (key, v) := by
  induction m with
  | nil => simp [mapGet] at h
  | cons e rest ih =>
    by_cases he : e.1 = key
    · simp only [mapGet, he, if_pos rfl] at h
      refine ⟨0, by simp, ?_⟩
      simp only [List.getD_cons_zero]
      cases e
      simp_all
    · simp only [mapGet, if_neg he] at h
      obtain ⟨j, hj, hget⟩ := ih h
      exact ⟨j + 1, by simpa using Nat.succ_lt_succ hj, by simpa using hget⟩

theorem mapGet_append_of_none {κ : Type} [DecidableEq κ] (key : κ)
    (m m' : List (κ × Nat)) (h : mapGet key m = none) :
    mapGet key (m ++ m') = mapGet key m' := by
  induction m with
  | nil => simp
  | cons e rest ih =>
    by_cases he : e.1 = key
    · simp [mapGet, he] at h
    · simp only [mapGet, if_neg he] at h
      simpa [mapGet, he] using ih h

theorem getD_concat_self {α : Type} (l : List α) (a d : α) :
    (l ++ [a]).getD l.length d = a := by
  induction l with
  | nil => rfl
  | cons x xs ih => simp [ih]

theorem splitOnChar_ne_nil (sep : Char) (l : List Char) : splitOnChar sep l ≠ [] := by
  cases l with
  | nil => simp [splitOnChar]
  | cons c rest =>
    by_cases h : c = sep
    · simp [splitOnChar, h]
    · simp only [splitOnChar, if_neg h]
      cases splitOnChar sep rest <;> simp

theorem tablesOk_initial : TablesOk initialThread := by
  constructor <;> simp [initialThread]

/-! ## Interning preserves the table invariant -/

theorem getOrCreateFrame_hit (fs : List Char) (t : ThreadState) (v : Nat)
    (h : mapGet fs t.frameMap = some v) : getOrCreateFrame fs t = (v, t) := by
  simp [getOrCreateFrame, h]

theorem getOrCreateFrame_miss (fs : List Char) (t : ThreadState)
    (h : mapGet fs t.frameMap = none) :
    getOrCreateFrame fs t =
      (t.frameTable.length,
        { t with
          stringTable := t.stringTable ++ [stripJavaSuffix fs]
          frameTable :=
            t.frameTable ++ [mkFrameRow t.stringTable.length (categoryOf fs)]
          frameMap := t.frameMap ++ [(fs, t.frameTable.length)] }) := by
  simp [getOrCreateFrame, h]

theorem getOrCreateStack_hit (frame : Nat) (pre : Option Nat) (t : ThreadState)
    (v : Nat) (h : mapGet (StackRow.mk pre frame) t.stackMap = some v) :
    getOrCreateStack frame pre t = (v, t) := by
  simp [getOrCreateStack, h]

theorem getOrCreateStack_miss (frame : Nat) (pre : Option Nat) (t : ThreadState)
    (h : mapGet (StackRow.mk pre frame) t.stackMap = none) :
    getOrCreateStack frame pre t =
      (t.stackTable.length,
        { t with
          stackTable := t.stackTable ++ [StackRow.mk pre frame]
          stackMap :=
            t.stackMap ++ [(StackRow.mk pre frame, t.stackTable.length)] }) := by
  simp [getOrCreateStack, h]

theorem getOrCreateFrame_spec (fs : List Char) (t : ThreadState) (ht : TablesOk t) :
    TablesOk (getOrCreateFrame fs t).2 ∧
    (getOrCreateFrame fs t).1 < (getOrCreateFrame fs t).2.frameTable.length ∧
    (getOrCreateFrame fs t).2.stackTable = t.stackTable ∧
    (getOrCreateFrame fs t).2.stackMap = t.stackMap ∧
    (getOrCreateFrame fs t).2.samples = t.samples ∧
    t.frameTable.length ≤ (getOrCreateFrame fs t).2.frameTable.length := by
  cases h : mapGet fs t.frameMap with
  | some v =>
    rw [getOrCreateFrame_hit fs t v h]
    have hv : v < t.frameTable.length := by
      obtain ⟨j, hj, hget⟩ := mapGet_eq_some_mem fs t.frameMap v defFrameEntry h
      have hval := ht.fm_val j hj
      rw [hget] at hval
      simp only at hval
      have hlen := ht.fm_len
      omega
    exact ⟨ht, hv, rfl, rfl, rfl, Nat.le_refl _⟩
  | none =>
    rw [getOrCreateFrame_miss fs t h]
    have hnotmem : fs ∉ t.frameMap.map Prod.fst := by
      intro hmem
      obtain ⟨e, hemem, hefst⟩ := List.mem_map.1 hmem
      exact (mapGet_eq_none_iff fs t.frameMap).1 h e hemem hefst
    have hfm := ht.fm_len
    have hstr := ht.str_len
    refine ⟨⟨?_, ?_, ?_, ?_, ?_, ?_, ?_, ?_, ?_, ?_, ?_⟩, ?_, rfl, rfl, rfl, ?_⟩
    · simp [hfm]
    · simp [hstr]
    · intro j hj
      simp only [List.length_append, List.length_cons, List.length_nil] at hj
      rcases Nat.lt_or_ge j t.frameMap.length with hlt | hge
      · rw [List.getD_append _ _ _ _ hlt]
        exact ht.fm_val j hlt
      · have hje : j = t.frameMap.length := by omega
        subst hje
        rw [getD_concat_self]
        simpa using hfm
    · simp only [List.map_append]
      refine List.Nodup.append ht.fm_nodup (List.nodup_singleton fs) ?_
      intro a ha hb
      simp only [List.map_cons, List.map_nil, List.mem_singleton] at hb
      subst hb
      exact hnotmem ha
    · intro j hj
      simp only [List.length_append, List.length_cons, List.length_nil] at hj
      rcases Nat.lt_or_ge j t.frameMap.length with hlt | hge
      · rw [List.getD_append _ _ _ _ hlt, List.getD_append _ _ _ _ (hstr ▸ hlt)]
        exact ht.str_row j hlt
      · have hje : j = t.frameMap.length := by omega
        subst hje
        rw [getD_concat_self, ← hstr, getD_concat_self]
    · intro j hj
      simp only [List.length_append, List.length_cons, List.length_nil] at hj
      rcases Nat.lt_or_ge j t.frameMap.length with hlt | hge
      · rw [List.getD_append _ _ _ _ hlt, List.getD_append _ _ _ _ (hfm ▸ hlt)]
        exact ht.frame_row j hlt
      · have hje : j = t.frameMap.length := by omega
        subst hje
        rw [getD_concat_self, ← hfm, getD_concat_self, hfm, hstr]
    · exact ht.sm_len
    · exact ht.sm_entry
    · exact ht.stack_pre
    · intro j hj
      have := ht.stack_frame j hj
      simp only [List.length_append, List.length_cons, List.length_nil]
      omega
    · intro s hs
      obtain ⟨h1, h2, h3⟩ := ht.samples_ok s hs
      exact ⟨h1, h2, h3⟩
    · simp
    · simp

theorem getOrCreateStack_spec (frame : Nat) (pre : Option Nat) (t : ThreadState)
    (ht : TablesOk t)
    (hpre : ∀ p, pre = some p → p < t.stackTable.length)
    (hframe : frame < t.frameTable.length) :
    TablesOk (getOrCreateStack frame pre t).2 ∧
    (getOrCreateStack frame pre t).1 < (getOrCreateStack frame pre t).2.stackTable.length ∧
    t.stackTable.length ≤ (getOrCreateStack frame pre t).2.stackTable.length ∧
    (getOrCreateStack frame pre t).2.samples = t.samples ∧
    (getOrCreateStack frame pre t).2.frameTable = t.frameTable := by
  cases h : mapGet (StackRow.mk pre frame) t.stackMap with
  | some v =>
    rw [getOrCreateStack_hit frame pre t v h]
    have hv : v < t.stackTable.length := by
      obtain ⟨j, hj, hget⟩ := mapGet_eq_some_mem _ t.stackMap v defStackEntry h
      have hentry := ht.sm_entry j hj
      rw [hget] at hentry
      have : v = j := congrArg Prod.snd hentry
      have hlen := ht.sm_len
      omega
    exact ⟨ht, hv, Nat.le_refl _, rfl, rfl⟩
  | none =>
    rw [getOrCreateStack_miss frame pre t h]
    have hsm := ht.sm_len
    refine ⟨⟨ht.fm_len, ht.str_len, ht.fm_val, ht.fm_nodup, ht.str_row, ht.frame_row,
      ?_, ?_, ?_, ?_, ?_⟩, ?_, ?_, rfl, rfl⟩
    · simp [hsm]
    · intro j hj
      simp only [List.length_append, List.length_cons, List.length_nil] at hj
      rcases Nat.lt_or_ge j t.stackMap.length with hlt | hge
      · rw [List.getD_append _ _ _ _ hlt, List.getD_append _ _ _ _ (hsm ▸ hlt)]
        exact ht.sm_entry j hlt
      · have hje : j = t.stackMap.length := by omega
        subst hje
        rw [getD_concat_self, hsm, getD_concat_self]
    · intro j hj
      simp only [List.length_append, List.length_cons, List.length_nil] at hj
      rcases Nat.lt_or_ge j t.stackTable.length with hlt | hge
      · rw [List.getD_append _ _ _ _ hlt]
        exact ht.stack_pre j hlt
      · have hje : j = t.stackTable.length := by omega
        subst hje
        rw [getD_concat_self]
        intro p hp
        exact hpre p hp
    · intro j hj
      simp only [List.length_append, List.length_cons, List.length_nil] at hj
      rcases Nat.lt_or_ge j t.stackTable.length with hlt | hge
      · rw [List.getD_append _ _ _ _ hlt]
        exact ht.stack_frame j hlt
      · have hje : j = t.stackTable.length := by omega
        subst hje
        rw [getD_concat_self]
        exact hframe
    · intro s hs
      obtain ⟨h1, h2, h3⟩ := ht.samples_ok s hs
      refine ⟨h1, ?_, h3⟩
      intro k hk
      have := h2 k hk
      simp only [List.length_append, List.length_cons, List.length_nil]
      omega
    · simp
    · simp

theorem addSampleFold_spec (arr : List (List Char)) :
    ∀ (pre : Option Nat) (t : ThreadState), TablesOk t →
      (∀ p, pre = some p → p < t.stackTable.length) →
      TablesOk (arr.foldl addSampleStep (pre, t)).2 ∧
      (∀ p, (arr.foldl addSampleStep (pre, t)).1 = some p →
        p < (arr.foldl addSampleStep (pre, t)).2.stackTable.length) ∧
      (arr.foldl addSampleStep (pre, t)).2.samples = t.samples ∧
      ((arr ≠ [] ∨ pre ≠ none) → (arr.foldl addSampleStep (pre, t)).1 ≠ none) := by
  induction arr with
  | nil =>
    intro pre t ht hpre
    refine ⟨ht, hpre, rfl, ?_⟩
    rintro (hne | hne)
    · exact absurd rfl hne
    · exact hne
  | cons a rest ih =>
    intro pre t ht hpre
    have hframe := getOrCreateFrame_spec a t ht
    obtain ⟨ht1, hf1, hstk1, hsmap1, hsmp1, hmono1⟩ := hframe
    have hpre1 : ∀ p, pre = some p → p < (getOrCreateFrame a t).2.stackTable.length := by
      intro p hp
      rw [hstk1]
      exact hpre p hp
    have hstack := getOrCreateStack_spec (getOrCreateFrame a t).1 pre
      (getOrCreateFrame a t).2 ht1 hpre1 hf1
    obtain ⟨ht2, hs2, hmono2, hsmp2, hft2⟩ := hstack
    have hstep : addSampleStep (pre, t) a =
        (some (getOrCreateStack (getOrCreateFrame a t).1 pre (getOrCreateFrame a t).2).1,
         (getOrCreateStack (getOrCreateFrame a t).1 pre (getOrCreateFrame a t).2).2) := rfl
    have hpre2 : ∀ p,
        (some (getOrCreateStack (getOrCreateFrame a t).1 pre (getOrCreateFrame a t).2).1 :
          Option Nat) = some p →
        p < (getOrCreateStack (getOrCreateFrame a t).1 pre
              (getOrCreateFrame a t).2).2.stackTable.length := by
      intro p hp
      cases hp
      exact hs2
    have := ih (some (getOrCreateStack (getOrCreateFrame a t).1 pre
        (getOrCreateFrame a t).2).1)
      (getOrCreateStack (getOrCreateFrame a t).1 pre (getOrCreateFrame a t).2).2
      ht2 hpre2
    obtain ⟨hta, hpa, hsa, hna⟩ := this
    rw [List.foldl_cons, hstep]
    refine ⟨hta, hpa, ?_, ?_⟩
    · rw [hsa, hsmp2, hsmp1]
    · intro _
      rcases rest.eq_nil_or_concat with hr | _
      · subst hr
        simp
      · exact hna (Or.inr (by simp))

theorem addSample_spec (time : Nat) (arr : List (List Char)) (t : ThreadState)
    (ht : TablesOk t) (harr : arr ≠ []) :
    TablesOk (addSample time arr t) ∧
    (addSample time arr t).samples.map (fun s => s.time) =
      t.samples.map (fun s => s.time) ++ [time] := by
  obtain ⟨hta, hpa, hsa, hna⟩ :=
    addSampleFold_spec arr none t ht (by intro p hp; cases hp)
  have hstackNe := hna (Or.inl harr)
  obtain ⟨k, hk⟩ := Option.ne_none_iff_exists'.1 hstackNe
  have hklt := hpa k hk
  constructor
  · refine ⟨hta.fm_len, hta.str_len, hta.fm_val, hta.fm_nodup, hta.str_row,
      hta.frame_row, hta.sm_len, hta.sm_entry, hta.stack_pre, hta.stack_frame, ?_⟩
    intro s hs
    simp only [addSample, List.mem_append, List.mem_singleton] at hs
    rcases hs with hs | hs
    · exact hta.samples_ok s hs
    · subst hs
      refine ⟨by simp [hk], ?_, rfl⟩
      intro k' hk'
      simp only [hk] at hk'
      cases hk'
      exact hklt
  · simp only [addSample, List.map_append, hsa]
    rfl

theorem emitSamples_spec (frames : List Char) (n : Nat) :
    ∀ cs : ConvState, ConvOk cs →
      ConvOk (emitSamples frames n cs) ∧
      (emitSamples frames n cs).timeStamp = cs.timeStamp + n ∧
      (emitSamples frames n cs).log = cs.log := by
  induction n with
  | zero => intro cs h; exact ⟨h, rfl, rfl⟩
  | succ n ih =>
    intro cs h
    have hsplit : (splitOnChar ';' frames).length ≠ 0 := by
      intro hzero
      exact splitOnChar_ne_nil ';' frames (List.length_eq_zero.1 hzero)
    obtain ⟨htab, htime⟩ := h
    have hadd := addSample_spec cs.timeStamp (splitOnChar ';' frames) cs.thread htab
      (fun hnil => splitOnChar_ne_nil ';' frames hnil)
    have hok : ConvOk ⟨addSample cs.timeStamp (splitOnChar ';' frames) cs.thread,
        cs.timeStamp + 1, cs.log⟩ := by
      refine ⟨hadd.1, ?_⟩
      simp only [hadd.2, htime, List.range_succ]
    have := ih ⟨addSample cs.timeStamp (splitOnChar ';' frames) cs.thread,
        cs.timeStamp + 1, cs.log⟩ hok
    simp only [emitSamples, if_pos hsplit]
    refine ⟨this.1, ?_, this.2.2⟩
    rw [this.2.1]
    show cs.timeStamp + 1 + n = cs.timeStamp + (n + 1)
    omega

theorem processLine_spec (cs : ConvState) (line : List Char) (h : ConvOk cs) :
    ConvOk (processLine cs line) ∧
    (processLine cs line).timeStamp = cs.timeStamp + lineWeight line := by
  by_cases hnil : line = []
  · subst hnil
    simp only [processLine, if_pos rfl]
    exact ⟨h, by simp [lineWeight, lineMatch]⟩
  · cases hm : lineMatch line with
    | none =>
      simp only [processLine, if_neg hnil, hm]
      refine ⟨⟨h.1, h.2⟩, ?_⟩
      simp [lineWeight, hm]
    | some r =>
      simp only [processLine, if_neg hnil, hm]
      obtain ⟨hok, htime, _⟩ := emitSamples_spec r.1 (parseDigits r.2) cs h
      exact ⟨hok, by simp [htime, lineWeight, hm]⟩

theorem foldl_processLine_spec (lines : List (List Char)) :
    ∀ cs : ConvState, ConvOk cs →
      ConvOk (lines.foldl processLine cs) ∧
      (lines.foldl processLine cs).timeStamp =
        cs.timeStamp + (lines.map lineWeight).sum := by
  induction lines with
  | nil => intro cs h; exact ⟨h, by simp⟩
  | cons l rest ih =>
    intro cs h
    obtain ⟨h1, h2⟩ := processLine_spec cs l h
    obtain ⟨h3, h4⟩ := ih (processLine cs l) h1
    refine ⟨h3, ?_⟩
    rw [List.foldl_cons, h4, h2]
    simp only [List.map_cons, List.sum_cons]
    omega

theorem convOk_initial : ConvOk ⟨initialThread, 0, []⟩ :=
  ⟨tablesOk_initial, by simp [initialThread]⟩

theorem convert_convOk (profile : List Char) :
    ConvOk (convertFlameGraphProfile profile) :=
  (foldl_processLine_spec (splitOnChar '\n' profile) ⟨initialThread, 0, []⟩
    convOk_initial).1

theorem convert_tablesOk (profile : List Char) : TablesOk (convThread profile) :=
  (convert_convOk profile).1

theorem convert_timeStamp (profile : List Char) :
    (convertFlameGraphProfile profile).timeStamp =
      ((splitOnChar '\n' profile).map lineWeight).sum := by
  have := (foldl_processLine_spec (splitOnChar '\n' profile) ⟨initialThread, 0, []⟩
    convOk_initial).2
  simpa [convertFlameGraphProfile] using this

/-! ## The detector regex: structural reading vs. the scanner -/

theorem hasSpaceDigit_of_decomp (u : List Char) (d : Char) (v : List Char)
    (hd : isDigitChar d = true) : hasSpaceDigit (u ++ ' ' :: d :: v) = true := by
  induction u with
  | nil => simp [hasSpaceDigit, hd]
  | cons c rest ih => simp [hasSpaceDigit, ih]

theorem hasSpaceDigit_iff (l : List Char) :
    hasSpaceDigit l = true ↔
      ∃ u d v, l = u ++ ' ' :: d :: v ∧ isDigitChar d = true := by
  constructor
  · induction l with
    | nil => intro h; simp [hasSpaceDigit] at h
    | cons c rest ih =>
      intro h
      simp only [hasSpaceDigit, Bool.or_eq_true, Bool.and_eq_true,
        decide_eq_true_eq] at h
      rcases h with ⟨hc, hdig⟩ | h
      · subst hc
        cases rest with
        | nil => simp at hdig
        | cons d v => exact ⟨[], d, v, rfl, hdig⟩
      · obtain ⟨u, d, v, heq, hd⟩ := ih h
        exact ⟨c :: u, d, v, by rw [heq]; rfl, hd⟩
  · rintro ⟨u, d, v, rfl, hd⟩
    exact hasSpaceDigit_of_decomp u d v hd

theorem detectorRegexMatches_iff (l : List Char) :
    detectorRegexMatches l ↔
      ∃ u d v, l = u ++ ' ' :: d :: v ∧ isDigitChar d = true := by
  constructor
  · rintro ⟨pre, seg0, mid, d, ds, post, heq, _, _, hd, _⟩
    exact ⟨pre ++ seg0 ++ mid, d, ds ++ post, by simp [heq, List.append_assoc], hd⟩
  · rintro ⟨u, d, v, rfl, hd⟩
    refine ⟨u, [], [], d, [], v, by simp, ?_, SemiSegList.nil, hd, by simp⟩
    intro c hc
    exact absurd hc (List.not_mem_nil c)

/-! ## The line regex under appended non-digit text -/

theorem lineMatch_cons (c : Char) (rest : List Char) :
    lineMatch (c :: rest) =
      match lineMatch rest with
      | some r => some (c :: r.1, r.2)
      | none =>
        if c = ' ' then
          match rest with
          | d :: _ =>
            if isDigitChar d then some ([], rest.takeWhile isDigitChar) else none
          | [] => none
        else none := rfl

theorem lineMatch_nodigits (l : List Char) (h : ∀ c ∈ l, isDigitChar c = false) :
    lineMatch l = none := by
  induction l with
  | nil => rfl
  | cons c rest ih =>
    have hrest : lineMatch rest = none :=
      ih (fun x hx => h x (List.mem_cons_of_mem c hx))
    rw [lineMatch_cons, hrest]
    by_cases hc : c = ' '
    · rw [if_pos hc]
      cases rest with
      | nil => rfl
      | cons d v =>
        have hd : isDigitChar d = false := h d (by simp)
        simp [hd]
    · rw [if_neg hc]

theorem lineMatch_append_none (l extra : List Char)
    (h : lineMatch l = none) (hextra : ∀ c ∈ extra, isDigitChar c = false) :
    lineMatch (l ++ extra) = none := by
  induction l with
  | nil => simpa using lineMatch_nodigits extra hextra
  | cons c rest ih =>
    have hrest : lineMatch rest = none := by
      cases hr : lineMatch rest with
      | none => rfl
      | some r => rw [lineMatch_cons, hr] at h; cases h
    have hihr : lineMatch (rest ++ extra) = none := ih hrest
    rw [lineMatch_cons, hrest] at h
    rw [List.cons_append, lineMatch_cons, hihr]
    cases rest with
    | nil =>
      cases extra with
      | nil =>
        show (if c = ' ' then (none : Option (List Char × List Char)) else none) = none
        by_cases hc : c = ' '
        · rw [if_pos hc]
        · rw [if_neg hc]
      | cons e es =>
        have he : isDigitChar e = false := hextra e (by simp)
        show (if c = ' ' then
            if isDigitChar e then
              some (([] : List Char), (([] : List Char) ++ e :: es).takeWhile isDigitChar)
            else none
          else none) = none
        by_cases hc : c = ' '
        · rw [if_pos hc, if_neg (by simp [he])]
        · rw [if_neg hc]
    | cons d v =>
      have h' : (if c = ' ' then
          if isDigitChar d then
            some (([] : List Char), (d :: v).takeWhile isDigitChar)
          else none
        else none) = (none : Option (List Char × List Char)) := h
      show (if c = ' ' then
          if isDigitChar d then
            some (([] : List Char), ((d :: v) ++ extra).takeWhile isDigitChar)
          else none
        else none) = none
      by_cases hc : c = ' '
      · rw [if_pos hc] at h' ⊢
        have hd : isDigitChar d = false := by
          by_cases hdt : isDigitChar d
          · rw [if_pos hdt] at h'; cases h'
          · simpa using hdt
        rw [if_neg (by simp [hd])]
      · rw [if_neg hc]

theorem takeWhile_append_nodigit (l extra : List Char)
    (hextra : ∀ c ∈ extra, isDigitChar c = false) :
    (l ++ extra).takeWhile isDigitChar = l.takeWhile isDigitChar := by
  induction l with
  | nil =>
    cases extra with
    | nil => rfl
    | cons e es =>
      have he : isDigitChar e = false := hextra e (by simp)
      simp [List.takeWhile_cons, he]
  | cons c rest ih =>
    by_cases hc : isDigitChar c
    · simp [List.takeWhile_cons, hc, ih]
    · simp [List.takeWhile_cons, hc]

theorem lineMatch_append_nodigit (line extra : List Char) (f d : List Char)
    (h : lineMatch line = some (f, d))
    (hextra : ∀ c ∈ extra, isDigitChar c = false) :
    lineMatch (line ++ extra) = some (f, d) := by
  induction line generalizing f d with
  | nil => cases h
  | cons c rest ih =>
    cases hr : lineMatch rest with
    | some r =>
      rw [lineMatch_cons, hr] at h
      cases h
      have hrec : lineMatch (rest ++ extra) = some (r.1, r.2) := ih r.1 r.2 (by rw [hr])
      rw [List.cons_append, lineMatch_cons, hrec]
    | none =>
      have hre : lineMatch (rest ++ extra) = none :=
        lineMatch_append_none rest extra hr hextra
      rw [lineMatch_cons, hr] at h
      cases rest with
      | nil =>
        have h' : (if c = ' ' then (none : Option (List Char × List Char)) else none) =
            some (f, d) := h
        by_cases hc : c = ' '
        · rw [if_pos hc] at h'; cases h'
        · rw [if_neg hc] at h'; cases h'
      | cons d0 v =>
        have h' : (if c = ' ' then
            if isDigitChar d0 then
              some (([] : List Char), (d0 :: v).takeWhile isDigitChar)
            else none
          else none) = some (f, d) := h
        by_cases hc : c = ' '
        · rw [if_pos hc] at h'
          by_cases hd0 : isDigitChar d0
          · rw [if_pos hd0] at h'
            cases h'
            rw [List.cons_append, lineMatch_cons, hre]
            show (if c = ' ' then
                if isDigitChar d0 then
                  some (([] : List Char), ((d0 :: v) ++ extra).takeWhile isDigitChar)
                else none
              else none) = some ([], (d0 :: v).takeWhile isDigitChar)
            rw [if_pos hc, if_pos hd0, takeWhile_append_nodigit (d0 :: v) extra hextra]
          · rw [if_neg hd0] at h'; cases h'
        · rw [if_neg hc] at h'; cases h'

/-! ## Skipped lines leave the thread untouched -/

theorem foldl_processLine_thread (lines : List (List Char)) :
    ∀ cs : ConvState, (∀ l ∈ lines, lineMatch l = none) →
      (lines.foldl processLine cs).thread = cs.thread := by
  induction lines with
  | nil => intro cs _; rfl
  | cons l rest ih =>
    intro cs hall
    have hl : lineMatch l = none := hall l (by simp)
    have hthread : (processLine cs l).thread = cs.thread := by
      by_cases hnil : l = []
      · simp [processLine, hnil]
      · simp only [processLine, if_neg hnil, hl]
    rw [List.foldl_cons, ih (processLine cs l) (fun x hx => hall x (by simp [hx])),
      hthread]

theorem getOrCreateFrame_mapGet_after (fs : List Char) (t : ThreadState) :
    mapGet fs (getOrCreateFrame fs t).2.frameMap = some (getOrCreateFrame fs t).1 := by
  cases h : mapGet fs t.frameMap with
  | some v =>
    rw [getOrCreateFrame_hit fs t v h]
    exact h
  | none =>
    rw [getOrCreateFrame_miss fs t h]
    show mapGet fs (t.frameMap ++ [(fs, t.frameTable.length)]) = some t.frameTable.length
    rw [mapGet_append_of_none fs t.frameMap _ h]
    simp [mapGet]

/-! ## The claims -/

/-- C1, amended.  For every conversion run the stringTable is filled in
first-seen order of the raw frame labels, one entry per distinct raw label,
with StringId j equal to position j (so a given raw label always resolves
to the same id); the raw labels are pairwise distinct, but the stored
strings themselves need not be: each stored string is the suffix-stripped
raw label, and stripping can collide. -/
theorem stringTable_first_seen_order (profile : List Char) :
    (convThread profile).stringTable.length = (convThread profile).frameMap.length ∧
    ((convThread profile).frameMap.map Prod.fst).Nodup ∧
    ∀ j, j < (convThread profile).frameMap.length →
      ((convThread profile).frameMap.getD j defFrameEntry).2 = j ∧
      (convThread profile).stringTable.getD j [] =
        stripJavaSuffix ((convThread profile).frameMap.getD j defFrameEntry).1 := by
  have ht := convert_tablesOk profile
  exact ⟨ht.str_len, ht.fm_nodup, fun j hj => ⟨ht.fm_val j hj, ht.str_row j hj⟩⟩

/-- Witness for C1 at the profile `foo 1\nfoo_[j] 1`, index 1. -/
theorem stringTable_first_seen_order_witness :
    ((convThread ("foo 1\nfoo_[j] 1".toList)).frameMap.getD 1 defFrameEntry).2 = 1 ∧
    (convThread ("foo 1\nfoo_[j] 1".toList)).stringTable.getD 1 [] =
      stripJavaSuffix
        ((convThread ("foo 1\nfoo_[j] 1".toList)).frameMap.getD 1 defFrameEntry).1 :=
  (stringTable_first_seen_order ("foo 1\nfoo_[j] 1".toList)).2.2 1 (by decide)

/-- C1 counterexample.  On input `foo 1\nfoo_[j] 1` the two raw frame
labels are distinct, yet both stored strings are `foo`: the stringTable is
not a sequence of unique strings. -/
theorem stringTable_duplicate_stored_strings :
    (convThread ("foo 1\nfoo_[j] 1".toList)).frameMap.map Prod.fst =
      ["foo".toList, "foo_[j]".toList] ∧
    (convThread ("foo 1\nfoo_[j] 1".toList)).stringTable =
      ["foo".toList, "foo".toList] ∧
    ¬ (convThread ("foo 1\nfoo_[j] 1".toList)).stringTable.Nodup := by
  decide

/-- C2 counterexample.  The input `main;foo;bar 12` has no line break, so
`substring(0, indexOf('\n'))` is the empty string and the detector returns
false, although the claim requires true for an input whose first line is
exactly `main;foo;bar 12`. -/
theorem isFlameGraphFormat_no_newline_false :
    isFlameGraphFormat ("main;foo;bar 12".toList) = false := by
  decide

/-- C2, amended.  The detector returns false for text starting with a left
brace; otherwise it takes the text strictly before the first line break —
the empty string if the text has no line break — and returns true iff the
regex `[^;]*(;[^;]*)* [0-9]+` matches anywhere inside that line
(an unanchored substring match, not a match of the whole line). -/
theorem isFlameGraphFormat_characterization (profile : List Char) :
    isFlameGraphFormat profile = true ↔
      profile.head? ≠ some '{' ∧ detectorRegexMatches (firstLineJs profile) := by
  unfold isFlameGraphFormat
  by_cases hb : profile.head? = some '{'
  · simp [hb]
  · rw [if_neg hb, hasSpaceDigit_iff, detectorRegexMatches_iff]
    simp [hb]

/-- C3.  For the two-line input `a;b;c 1` then `a;b;d 1` the conversion
produces exactly 4 stack rows: the root `a`, the shared `a;b` prefix, and
the two leaves `a;b;c` and `a;b;d` — not 6. -/
theorem stackTable_shares_common_prefix :
    (convThread ("a;b;c 1\na;b;d 1".toList)).stackTable =
      [StackRow.mk none 0, StackRow.mk (some 0) 1, StackRow.mk (some 1) 2,
        StackRow.mk (some 1) 3] ∧
    (convThread ("a;b;c 1\na;b;d 1".toList)).stackTable.length = 4 := by
  decide

/-- C4.  For every input the emitted sample timestamps are exactly
`0, 1, ..., N-1` in emission order, where N is the sum of the parsed
weights of all lines (0 for empty or unmatched lines): the counter is
process-wide and never resets. -/
theorem sample_timestamps_are_range (profile : List Char) :
    (convThread profile).samples.map (fun s => s.time) =
      List.range (((splitOnChar '\n' profile).map lineWeight).sum) := by
  have h := (convert_convOk profile).2
  rw [convert_timeStamp] at h
  exact h

/-- C5.  Every frame row's category is determined from its raw label by the
categorization rule (`_[j]` suffix means Java with the suffix stripped from
the stored label, no `::` means Native, otherwise Other), and the concrete
mappings of `foo_[j]`, `foo::bar` and `foo`. -/
theorem frame_category_assignment (profile : List Char) :
    (∀ j, j < (convThread profile).frameTable.length →
      ((convThread profile).frameTable.getD j defaultFrameRow).category =
        categoryOf ((convThread profile).frameMap.getD j defFrameEntry).1 ∧
      (convThread profile).stringTable.getD j [] =
        stripJavaSuffix ((convThread profile).frameMap.getD j defFrameEntry).1) ∧
    categoryOf ("foo_[j]".toList) = JAVA_CATEGORY_INDEX ∧
    stripJavaSuffix ("foo_[j]".toList) = "foo".toList ∧
    categoryOf ("foo::bar".toList) = OTHER_CATEGORY_INDEX ∧
    categoryOf ("foo".toList) = NATIVE_CATEGORY_INDEX := by
  have ht := convert_tablesOk profile
  refine ⟨?_, by decide, by decide, by decide, by decide⟩
  intro j hj
  have hj' : j < (convThread profile).frameMap.length := ht.fm_len ▸ hj
  constructor
  · rw [ht.frame_row j hj']
    rfl
  · exact ht.str_row j hj'

/-- Witness for C5 at the profile `foo_[j] 1`, frame 0. -/
theorem frame_category_assignment_witness :
    ((convThread ("foo_[j] 1".toList)).frameTable.getD 0 defaultFrameRow).category =
      categoryOf ((convThread ("foo_[j] 1".toList)).frameMap.getD 0 defFrameEntry).1 ∧
    (convThread ("foo_[j] 1".toList)).stringTable.getD 0 [] =
      stripJavaSuffix ((convThread ("foo_[j] 1".toList)).frameMap.getD 0 defFrameEntry).1 :=
  (frame_category_assignment ("foo_[j] 1".toList)).1 0 (by decide)

/-- C6.  Frame interning is idempotent on the raw label: a second interning
of the same raw label returns the same FrameId and leaves the state
untouched, and the first interning appends at most one frame row — even
when the stored label had its `_[j]` suffix stripped, since the
deduplication key is the raw label. -/
theorem frame_interning_idempotent (fs : List Char) (t : ThreadState) :
    getOrCreateFrame fs (getOrCreateFrame fs t).2 =
      ((getOrCreateFrame fs t).1, (getOrCreateFrame fs t).2) ∧
    (getOrCreateFrame fs t).2.frameTable.length ≤ t.frameTable.length + 1 := by
  constructor
  · exact getOrCreateFrame_hit fs _ _ (getOrCreateFrame_mapGet_after fs t)
  · cases h : mapGet fs t.frameMap with
    | some v =>
      rw [getOrCreateFrame_hit fs t v h]
      exact Nat.le_succ _
    | none =>
      rw [getOrCreateFrame_miss fs t h]
      show (t.frameTable ++ [mkFrameRow t.stringTable.length (categoryOf fs)]).length ≤
        t.frameTable.length + 1
      simp

/-- C7.  A nonempty line the regex does not match is logged and skipped,
leaving tables and timestamp untouched; if no line matches, the conversion
still returns a profile with zero samples; and the two-line input
`a 1\nno-number-line` yields exactly the sample of the well-formed line
plus a log entry for the malformed one. -/
theorem malformed_lines_skipped :
    (∀ (cs : ConvState) (line : List Char), line ≠ [] → lineMatch line = none →
      processLine cs line = ⟨cs.thread, cs.timeStamp, cs.log ++ [line]⟩) ∧
    (∀ profile : List Char,
      (∀ line ∈ splitOnChar '\n' profile, lineMatch line = none) →
      (convertFlameGraphProfile profile).thread.samples = []) ∧
    (convertFlameGraphProfile ("a 1\nno-number-line".toList)).thread.samples =
      [SampleRow.mk (some 0) 0 0] ∧
    (convertFlameGraphProfile ("a 1\nno-number-line".toList)).log =
      ["no-number-line".toList] := by
  refine ⟨?_, ?_, by decide, by decide⟩
  · intro cs line hnil hm
    simp only [processLine, if_neg hnil, hm]
  · intro profile hall
    have h2 : (convertFlameGraphProfile profile).thread = initialThread :=
      foldl_processLine_thread (splitOnChar '\n' profile) ⟨initialThread, 0, []⟩ hall
    rw [h2]
    rfl

/-- Witness for C7 at the malformed line `no-number-line` and the
all-malformed profile `zzz`. -/
theorem malformed_lines_skipped_witness :
    processLine ⟨initialThread, 5, []⟩ ("no-number-line".toList) =
      ⟨initialThread, 5, ["no-number-line".toList]⟩ ∧
    (convertFlameGraphProfile ("zzz".toList)).thread.samples = [] := by
  constructor
  · have h := malformed_lines_skipped.1 ⟨initialThread, 5, []⟩ ("no-number-line".toList)
      (by decide) (by decide)
    simpa using h
  · exact malformed_lines_skipped.2.1 ("zzz".toList) (by decide)

/-- C8.  Every conversion output is structurally sound: each stack row's
prefix is null or an earlier row index, each stack row's frame and each
frame row's location are valid table indices, and each sample's stack is a
valid stack index. -/
theorem tables_structurally_sound (profile : List Char) :
    (∀ j, j < (convThread profile).stackTable.length →
      (∀ p, ((convThread profile).stackTable.getD j defaultStackRow).pre = some p →
        p < j) ∧
      ((convThread profile).stackTable.getD j defaultStackRow).frame <
        (convThread profile).frameTable.length) ∧
    (∀ j, j < (convThread profile).frameTable.length →
      ((convThread profile).frameTable.getD j defaultFrameRow).location <
        (convThread profile).stringTable.length) ∧
    (∀ s ∈ (convThread profile).samples,
      s.stack ≠ none ∧
        ∀ k, s.stack = some k → k < (convThread profile).stackTable.length) := by
  have ht := convert_tablesOk profile
  refine ⟨fun j hj => ⟨ht.stack_pre j hj, ht.stack_frame j hj⟩, ?_, ?_⟩
  · intro j hj
    have hj' : j < (convThread profile).frameMap.length := ht.fm_len ▸ hj
    rw [ht.frame_row j hj']
    show j < _
    rw [ht.str_len]
    exact hj'
  · intro s hs
    obtain ⟨h1, h2, _⟩ := ht.samples_ok s hs
    exact ⟨h1, h2⟩

/-- Witness for C8 at the profile `a;b 1`. -/
theorem tables_structurally_sound_witness :
    ((convThread ("a;b 1".toList)).stackTable.getD 1 defaultStackRow).frame <
      (convThread ("a;b 1".toList)).frameTable.length ∧
    (0 : Nat) < 1 ∧
    ((convThread ("a;b 1".toList)).frameTable.getD 0 defaultFrameRow).location <
      (convThread ("a;b 1".toList)).stringTable.length ∧
    (1 : Nat) < (convThread ("a;b 1".toList)).stackTable.length := by
  refine ⟨((tables_structurally_sound ("a;b 1".toList)).1 1 (by decide)).2,
    ((tables_structurally_sound ("a;b 1".toList)).1 1 (by decide)).1 0 (by decide),
    (tables_structurally_sound ("a;b 1".toList)).2.1 0 (by decide),
    ((tables_structurally_sound ("a;b 1".toList)).2.2 (SampleRow.mk (some 1) 0 0)
      (by decide)).2 1 (by decide)⟩

/-- C9.  A line whose weight digits parse to 0 (for example `x 0`) is
matched by the regex — so it is not logged as a format error — and the
conversion emits no samples and interns nothing for it: processing it is a
complete no-op. -/
theorem zero_weight_line_is_noop :
    (∀ (cs : ConvState) (line f dgs : List Char),
      lineMatch line = some (f, dgs) → parseDigits dgs = 0 →
      processLine cs line = cs) ∧
    convertFlameGraphProfile ("x 0".toList) = ⟨initialThread, 0, []⟩ := by
  refine ⟨?_, by decide⟩
  intro cs line f dgs hm hz
  have hnil : line ≠ [] := by
    intro h
    subst h
    cases hm
  simp only [processLine, if_neg hnil, hm, hz]
  rfl

/-- Witness for C9 at the line `x 0`. -/
theorem zero_weight_line_is_noop_witness :
    processLine ⟨initialThread, 3, []⟩ ("x 0".toList) = ⟨initialThread, 3, []⟩ :=
  zero_weight_line_is_noop.1 ⟨initialThread, 3, []⟩ ("x 0".toList) ("x".toList)
    ("0".toList) (by decide) (by decide)

/-- C10.  The line regex is matched anywhere in the line, not anchored at
its end: appending digit-free garbage after a matching line leaves both
captured groups unchanged, and the concrete line `a;b 5x` parses as frames
`a;b` with weight 5, is not logged, and emits 5 samples. -/
theorem unanchored_line_match :
    (∀ (line extra f dgs : List Char),
      lineMatch line = some (f, dgs) → (∀ c ∈ extra, isDigitChar c = false) →
      lineMatch (line ++ extra) = some (f, dgs)) ∧
    lineMatch ("a;b 5x".toList) = some ("a;b".toList, "5".toList) ∧
    (convertFlameGraphProfile ("a;b 5x".toList)).thread.samples.map (fun s => s.time) =
      [0, 1, 2, 3, 4] ∧
    (convertFlameGraphProfile ("a;b 5x".toList)).log = [] := by
  exact ⟨fun line extra f dgs h hx => lineMatch_append_nodigit line extra f dgs h hx,
    by decide, by decide, by decide⟩

/-- Witness for C10 at the line `a;b 5` with appended garbage `x`. -/
theorem unanchored_line_match_witness :
    lineMatch ("a;b 5".toList ++ "x".toList) = some ("a;b".toList, "5".toList) :=
  unanchored_line_match.1 ("a;b 5".toList) ("x".toList) ("a;b".toList) ("5".toList)
    (by decide) (by decide)
